import Mathlib

/-!
Verification of the batch-classification core of `app.py`.

The program is a Streamlit application whose core pipeline is:
`parse_response` (decode one model-response fragment into a category→flag
mapping), `process_batch_dialogue` (one model call, split the response on a
delimiter, parse the fragments and reconcile the count against the number of
input texts), `calculate_category_counts` and `format_category_result`
(aggregation/display), and the sidebar handler that updates the editable
category list.

Embedding conventions:
- A Python string is modelled as `List Char` (`PyStr`); `String` literals in
  concrete statements are turned into character lists with `String.data`.
- A Python dict with string keys and string values is modelled as an
  association list in insertion order (`PyDict`); `dictGet` is `dict.get`
  (first matching key — Python dicts have unique keys, which the well-formed
  inputs we quantify over reflect where it matters).
- `json.loads` is an external library function; it is abstracted as a
  function parameter, in two precisions. The full model is
  `decodeJ : PyStr → Option JVal`, where `JVal` covers the values
  `json.loads` can produce — object, string, array, other — and `none` is a
  raised decode error: a non-object decode reaches the `except` branch only
  when the category loop raises (`result[item] = ""` on a non-dict, or an
  `in` test on a non-container), and is otherwise returned *unchanged*.
  The coarser `decode : PyStr → Option PyDict` is the restriction of the
  full model to decoders that yield objects or fail
  (`parse_response_j_obj_restriction`); it is what the object-level and
  shape-level claims need.
- The Gemini call is abstracted as `Except Unit PyStr`: `Except.ok t` is a
  response with text `t`, `Except.error ()` is any raised exception.
- Loops with early exits / `while` loops are modelled with explicit
  structural recursion so that all definitions evaluate by kernel reduction.
-/

/-- A Python string, modelled as its list of characters. -/
abbrev PyStr := List Char

/-- Python `str.strip()`: remove leading and trailing whitespace.
(Python strips all Unicode whitespace; `Char.isWhitespace` covers the ASCII
whitespace that occurs in this program's data.) -/
def pyStrip (s : PyStr) : PyStr :=
  ((s.dropWhile Char.isWhitespace).reverse.dropWhile Char.isWhitespace).reverse

/-- One step of Python `str.split(sep)` for a non-empty separator, with fuel
equal to the length of the string (each step consumes at least one character,
so the fuel is never exhausted; the fuel only makes the recursion structural). -/
def splitOnAux : Nat → PyStr → PyStr → List PyStr
  | _, _, [] => [[]]
  | 0, _, s => [s]
  | fuel + 1, sep, c :: rest =>
    if sep.isPrefixOf (c :: rest) then
      [] :: splitOnAux fuel sep (List.drop sep.length (c :: rest))
    else
      match splitOnAux fuel sep rest with
      | [] => [[c]]
      | h :: t => (c :: h) :: t

/-- Python `s.split(sep)` for a non-empty separator `sep` (the program only
splits on `"-----"` and `"\n"`; Python raises on an empty separator, which the
program never does, so that case is given the harmless value `[s]`). -/
def pySplit (sep s : PyStr) : List PyStr :=
  if sep.isEmpty then [s] else splitOnAux s.length sep s

/-- Python `str.splitlines()`, fuel-structured like `splitOnAux`:
accumulate the current line (reversed) and break at `\r\n`, `\r` or `\n`;
a final chunk is emitted only if it is non-empty (so a trailing line
terminator does not produce a trailing empty line, matching Python).
The rarer Unicode line boundaries of Python's `splitlines` are omitted. -/
def splitlinesAux : Nat → PyStr → PyStr → List PyStr
  | _, [], acc => if acc.isEmpty then [] else [acc.reverse]
  | 0, s, acc => [acc.reverse ++ s]
  | fuel + 1, '\r' :: '\n' :: rest, acc => acc.reverse :: splitlinesAux fuel rest []
  | fuel + 1, '\r' :: rest, acc => acc.reverse :: splitlinesAux fuel rest []
  | fuel + 1, '\n' :: rest, acc => acc.reverse :: splitlinesAux fuel rest []
  | fuel + 1, c :: rest, acc => splitlinesAux fuel rest (c :: acc)

/-- Python `s.splitlines()`. -/
def splitlines (s : PyStr) : List PyStr := splitlinesAux s.length s []

/-- The backquote character (written via its code point). -/
def backquote : Char := Char.ofNat 96

/-- The code-fence marker: three backquotes. -/
def fence : PyStr := [backquote, backquote, backquote]

/-- The newline string `"\n"`. -/
def newline : PyStr := ['\n']

/-- A Python dict with string keys and values, as an association list in
insertion order. -/
abbrev PyDict := List (PyStr × PyStr)

/-- Python `d.get(k)`: the value at the first entry whose key is `k`,
or `none` (Python `None`) when the key is absent. Polymorphic in the value
type, since the program uses both string-valued and count-valued dicts. -/
def dictGet {β : Type} (d : List (PyStr × β)) (k : PyStr) : Option β :=
  (d.find? (fun p => p.1 == k)).map (fun p => p.2)

/-- Python `k in d` for a dict `d`. -/
def hasKey {β : Type} (d : List (PyStr × β)) (k : PyStr) : Bool :=
  d.any (fun p => p.1 == k)

/-- Python `d[k] = v` on a dict: overwrite the value in place if the key is
present, otherwise append a new entry at the end (insertion order). -/
def dictSet {β : Type} (d : List (PyStr × β)) (k : PyStr) (v : β) :
    List (PyStr × β) :=
  if hasKey d k then d.map (fun p => if p.1 == k then (p.1, v) else p) else d ++ [(k, v)]

/-- `app.py` lines 114-121, the cleaning phase of `parse_response`:
strip the fragment; if it starts with a code fence, drop the fence line,
drop a trailing line that strips to a bare fence, and re-join and strip. -/
def cleanFragment (response_text : PyStr) : PyStr :=
  let cleaned := pyStrip response_text
  if fence.isPrefixOf cleaned then
    let lines0 := splitlines cleaned
    let lines1 :=
      match lines0 with
      | [] => lines0
      | l0 :: rest => if fence.isPrefixOf l0 then rest else lines0
    let lines2 :=
      if !lines1.isEmpty && pyStrip (lines1.getLast?.getD []) == fence then
        lines1.dropLast
      else lines1
    pyStrip (List.intercalate newline lines2)
  else cleaned

/-- `app.py` lines 125-127: `for item in categories: if item not in result:
result[item] = ""` — insert every category not yet present, with flag `""`
(the `for` loop rendered as recursion over the category list). -/
def fillCategories : PyDict → List PyStr → PyDict
  | result, [] => result
  | result, item :: rest =>
    fillCategories (if hasKey result item then result else result ++ [(item, [])]) rest

/-- `app.py` line 132 (and lines 164, 175): the all-absent record
`{item: "" for item in categories}`. A dict comprehension keeps one entry per
distinct key (re-assigning `""` to an existing key changes nothing), which is
exactly `fillCategories` starting from the empty dict. -/
def allAbsent (categories : List PyStr) : PyDict :=
  fillCategories [] categories

/-- `app.py` lines 113-132, `parse_response`, restricted to decoders that
yield a JSON object or fail: clean the fragment, decode it with `json.loads`
(abstracted as `decode`, see the file header); on an object fill in the
missing categories, on a failed decode return the all-absent record. This is
the restriction of the faithful `parse_response_j` below to object-or-failure
decoders (`parse_response_j_obj_restriction`); a successful *non-object*
decode, which the source can return unchanged, is modelled only by
`parse_response_j`. The source's `except` branch also writes two Streamlit
diagnostics; they do not affect the returned value and are not modelled. -/
def parse_response (decode : PyStr → Option PyDict) (response_text : PyStr)
    (categories : List PyStr) : PyDict :=
  match decode (cleanFragment response_text) with
  | some result => fillCategories result categories
  | none => allAbsent categories

/-- `app.py` lines 173-175, the `while len(results) < len(dialogues)` padding
loop, with fuel making the recursion structural; the caller passes
`fuel = len(dialogues)`, which bounds the number of iterations since each
iteration grows `results` by one. -/
def padLoop : Nat → List PyDict → Nat → List PyStr → List PyDict
  | 0, results, _, _ => results
  | fuel + 1, results, n, categories =>
    if results.length < n then padLoop fuel (results ++ [allAbsent categories]) n categories
    else results

/-- `app.py` lines 167-171, the `for part in parts` loop: strip each part and
append the parse of every part that is non-empty after stripping. -/
def parseParts (decode : PyStr → Option PyDict) (categories : List PyStr) :
    List PyStr → List PyDict
  | [] => []
  | part :: rest =>
    if !(pyStrip part).isEmpty then
      parse_response decode (pyStrip part) categories :: parseParts decode categories rest
    else parseParts decode categories rest

/-- `app.py` lines 135-181, `process_batch_dialogue`, from the model call on
(the prompt construction feeds only the external call and is not modelled):
on an exception from the Gemini call return one all-absent record per
dialogue; on a response, split it on the delimiter, strip each part, parse the
non-empty parts, pad with all-absent records while too short, and truncate
when too long. -/
def process_batch_dialogue (decode : PyStr → Option PyDict)
    (backend : Except Unit PyStr) (dialogues : List PyStr)
    (categories : List PyStr) (delimiter : PyStr) : List PyDict :=
  match backend with
  | Except.error _ => dialogues.map (fun _ => allAbsent categories)
  | Except.ok response_text =>
    let parts := pySplit delimiter response_text
    let results := parseParts decode categories parts
    let results := padLoop dialogues.length results dialogues.length categories
    if results.length > dialogues.length then results.take dialogues.length else results

/-- The dict comprehension `{category: 0 for category in categories}`
(`app.py` line 185): one entry per distinct category, insertion order,
rendered as recursion with an accumulator. -/
def initCountsLoop : List (PyStr × Nat) → List PyStr → List (PyStr × Nat)
  | acc, [] => acc
  | acc, c :: rest =>
    initCountsLoop (if hasKey acc c then acc else acc ++ [(c, 0)]) rest

/-- `app.py` line 185: the initial counts dict. -/
def initCounts (categories : List PyStr) : List (PyStr × Nat) :=
  initCountsLoop [] categories

/-- Python `counts[category] += 1` on the counts dict. -/
def bumpCount (counts : List (PyStr × Nat)) (c : PyStr) : List (PyStr × Nat) :=
  counts.map (fun p => if p.1 == c then (p.1, p.2 + 1) else p)

/-- `app.py` lines 187-189, the inner `for category in categories` loop:
increment the count of each category whose flag in `result` is exactly `"1"`. -/
def countCatsLoop (counts : List (PyStr × Nat)) (result : PyDict) :
    List PyStr → List (PyStr × Nat)
  | [] => counts
  | category :: rest =>
    countCatsLoop
      (if dictGet result category == some ['1'] then bumpCount counts category else counts)
      result rest

/-- `app.py` lines 186-189, the outer `for result in results` loop. -/
def countResultsLoop (counts : List (PyStr × Nat)) (categories : List PyStr) :
    List PyDict → List (PyStr × Nat)
  | [] => counts
  | result :: rest =>
    countResultsLoop (countCatsLoop counts result categories) categories rest

/-- `app.py` lines 184-190, `calculate_category_counts`: initialize every
category at 0, then for each result and each category increment the count
when the record's flag for the category is exactly `"1"`. -/
def calculate_category_counts (results : List PyDict) (categories : List PyStr) :
    List (PyStr × Nat) :=
  countResultsLoop (initCounts categories) categories results

/-- The display glyph `"✓"` used by `format_category_result`. -/
def checkGlyph : PyStr := ['✓']

/-- The value written for one category by `format_category_result`:
`"✓" if result.get(category) == "1" else ""`. -/
def glyphFor (result : PyDict) (category : PyStr) : PyStr :=
  if dictGet result category == some ['1'] then checkGlyph else []

/-- `app.py` lines 195-196, the `for category in categories` loop of
`format_category_result`: build a fresh dict assigning each category its
display glyph. The source only reads `result.get(category)` and writes into
the new dict `formatted`, so the embedding is a pure function of `result`
(the input record is not mutated). -/
def formatLoop (formatted : PyDict) (result : PyDict) : List PyStr → PyDict
  | [] => formatted
  | category :: rest =>
    formatLoop (dictSet formatted category (glyphFor result category)) result rest

/-- `app.py` lines 193-197, `format_category_result` itself: start from the
empty dict `formatted = {}` and run the loop. -/
def format_category_result (result : PyDict) (categories : List PyStr) : PyDict :=
  formatLoop [] result categories

/-- `app.py` line 65: `[cat.strip() for cat in categories_text.split("\n")
if cat.strip()]` — the list of stripped non-empty lines of the text box. -/
def parseCategoriesText (categories_text : PyStr) : List PyStr :=
  ((pySplit newline categories_text).map pyStrip).filter (fun c => !c.isEmpty)

/-- `app.py` lines 64-70, the "update categories" button handler: replace the
session's category list with the parsed entries when they are non-empty,
otherwise report an error and keep the previous list. -/
def update_categories (categories_text : PyStr) (previous : List PyStr) : List PyStr :=
  let categories := parseCategoriesText categories_text
  if !categories.isEmpty then categories else previous

/-- A decoded JSON value as `json.loads` can produce it: an object (modelled
with string values, the flag protocol of this program), a string, an array,
or any other value (number, boolean, `null` — all handled alike by the
category loop, whose `in` test raises on them). -/
inductive JVal : Type
  | obj (d : PyDict)
  | str (s : PyStr)
  | arr (elems : List JVal)
  | other

/-- Python `needle in hay` for strings: the substring test (the empty string
is a substring of every string). -/
def isSubstringOf : PyStr → PyStr → Bool
  | needle, [] => needle.isEmpty
  | needle, c :: rest => needle.isPrefixOf (c :: rest) || isSubstringOf needle rest

/-- Python's `item in result` for each decoded value `result`: key lookup for
a dict, substring test for a string, element equality for a list (a Python
`str` only ever compares equal to a string element); `none` when the `in`
test itself raises `TypeError` (numbers, booleans and `null` are not
containers). -/
def pyContains (v : JVal) (item : PyStr) : Option Bool :=
  match v with
  | JVal.obj d => some (hasKey d item)
  | JVal.str s => some (isSubstringOf item s)
  | JVal.arr elems => some (elems.any (fun e =>
      match e with
      | JVal.str s => s == item
      | _ => false))
  | JVal.other => none

/-- The `for item in categories` loop of `parse_response` over a non-dict
value: each iteration runs `item not in result`; `some true` (the item is
present) skips the assignment and continues; on `some false` the source
attempts `result[item] = ""`, which raises `TypeError` on a non-dict; `none`
means the `in` test itself raised. The `Option Unit` result is `none` when
the loop raised (aborting the `try` block), `some ()` when it completed. -/
def inLoop (test : PyStr → Option Bool) : List PyStr → Option Unit
  | [] => some ()
  | item :: rest =>
    match test item with
    | some true => inLoop test rest
    | _ => none

/-- `app.py` lines 124-127, the `try` body after `json.loads`, over an
arbitrary decoded value: on a dict, insert each missing category with `""`
(this loop never raises); on any other value, the loop either completes
without performing any assignment — leaving the value unchanged — or raises
(`none`). -/
def fillLoop (v : JVal) (categories : List PyStr) : Option JVal :=
  match v with
  | JVal.obj d => some (JVal.obj (fillCategories d categories))
  | v => (inLoop (pyContains v) categories).map (fun _ => v)

/-- `app.py` lines 113-132, `parse_response`, over arbitrary decoded JSON
values. `decodeJ` abstracts `json.loads` on the cleaned fragment (`none` =
the call raises, e.g. malformed JSON). The `except` branch — the all-absent
record — is reached exactly when the decode or the category loop raises; a
non-object value that survives the loop is returned unchanged. -/
def parse_response_j (decodeJ : PyStr → Option JVal) (response_text : PyStr)
    (categories : List PyStr) : JVal :=
  match decodeJ (cleanFragment response_text) with
  | some v =>
    match fillLoop v categories with
    | some r => r
    | none => JVal.obj (allAbsent categories)
  | none => JVal.obj (allAbsent categories)

/-- Whether a pipeline entry is a dict carrying an entry for the category `c`
— a non-dict entry carries no category entries at all. -/
def recordHasCategory (v : JVal) (c : PyStr) : Bool :=
  match v with
  | JVal.obj d => hasKey d c
  | _ => false

/-- `app.py` lines 167-171, the `for part in parts` loop, over the full
parser. -/
def parseParts_j (decodeJ : PyStr → Option JVal) (categories : List PyStr) :
    List PyStr → List JVal
  | [] => []
  | part :: rest =>
    if !(pyStrip part).isEmpty then
      parse_response_j decodeJ (pyStrip part) categories
        :: parseParts_j decodeJ categories rest
    else parseParts_j decodeJ categories rest

/-- `app.py` lines 173-175, the padding `while` loop, over the full parser
(same fuel convention as `padLoop`). -/
def padLoopJ : Nat → List JVal → Nat → List PyStr → List JVal
  | 0, results, _, _ => results
  | fuel + 1, results, n, categories =>
    if results.length < n then
      padLoopJ fuel (results ++ [JVal.obj (allAbsent categories)]) n categories
    else results

/-- `app.py` lines 135-181, `process_batch_dialogue`, over the full parser:
fragments may decode to arbitrary JSON values. -/
def process_batch_dialogue_j (decodeJ : PyStr → Option JVal)
    (backend : Except Unit PyStr) (dialogues categories : List PyStr)
    (delimiter : PyStr) : List JVal :=
  match backend with
  | Except.error _ => dialogues.map (fun _ => JVal.obj (allAbsent categories))
  | Except.ok response_text =>
    let parts := pySplit delimiter response_text
    let results := parseParts_j decodeJ categories parts
    let results := padLoopJ dialogues.length results dialogues.length categories
    if results.length > dialogues.length then results.take dialogues.length
    else results

/-! ### Association-list (Python dict) lemmas -/

theorem dictGet_cons {β : Type} (p : PyStr × β) (d : List (PyStr × β)) (k : PyStr) :
    dictGet (p :: d) k = if p.1 == k then some p.2 else dictGet d k := by
  by_cases hp : (p.1 == k) = true
  · simp [dictGet, List.find?_cons_of_pos, hp]
  · simp only [Bool.not_eq_true] at hp
    simp [dictGet, List.find?_cons_of_neg, hp]

theorem hasKey_cons {β : Type} (p : PyStr × β) (d : List (PyStr × β)) (k : PyStr) :
    hasKey (p :: d) k = (p.1 == k || hasKey d k) := by
  simp [hasKey]

theorem dictGet_append_left {β : Type} {d e : List (PyStr × β)} {k : PyStr} {v : β}
    (h : dictGet d k = some v) : dictGet (d ++ e) k = some v := by
  induction d with
  | nil => simp [dictGet] at h
  | cons p d ih =>
    rw [List.cons_append, dictGet_cons]
    rw [dictGet_cons] at h
    by_cases hp : (p.1 == k) = true
    · simpa [hp] using h
    · simp only [hp] at h ⊢
      simp only [Bool.false_eq_true, if_false]
      exact ih h

theorem dictGet_append_right {β : Type} {d e : List (PyStr × β)} {k : PyStr}
    (h : dictGet d k = none) : dictGet (d ++ e) k = dictGet e k := by
  induction d with
  | nil => simp
  | cons p d ih =>
    rw [List.cons_append, dictGet_cons]
    rw [dictGet_cons] at h
    by_cases hp : (p.1 == k) = true
    · simp [hp] at h
    · simp only [hp] at h ⊢
      simp only [Bool.false_eq_true, if_false]
      exact ih h

theorem dictGet_none_iff {β : Type} (d : List (PyStr × β)) (k : PyStr) :
    dictGet d k = none ↔ hasKey d k = false := by
  induction d with
  | nil => simp [dictGet, hasKey]
  | cons p d ih =>
    rw [dictGet_cons, hasKey_cons]
    by_cases hp : (p.1 == k) = true
    · simp [hp]
    · simp only [Bool.not_eq_true] at hp
      simp [hp, ih]

theorem hasKey_exists_get {β : Type} {d : List (PyStr × β)} {k : PyStr}
    (h : hasKey d k = true) : ∃ v, dictGet d k = some v := by
  cases hv : dictGet d k with
  | none => rw [dictGet_none_iff] at hv; rw [hv] at h; cases h
  | some v => exact ⟨v, rfl⟩

theorem key_mem_of_dictGet_some {β : Type} {d : List (PyStr × β)} {k : PyStr} {v : β}
    (h : dictGet d k = some v) : k ∈ d.map Prod.fst := by
  induction d with
  | nil => simp [dictGet] at h
  | cons p d ih =>
    rw [dictGet_cons] at h
    by_cases hp : (p.1 == k) = true
    · simp only [beq_iff_eq] at hp
      subst hp
      exact List.mem_map_of_mem Prod.fst (List.mem_cons_self p d)
    · simp only [hp, Bool.false_eq_true, if_false] at h
      rw [List.map_cons]
      exact List.mem_cons_of_mem _ (ih h)

theorem dictGet_of_mem_nodup {β : Type} {d : List (PyStr × β)} {p : PyStr × β}
    (hnd : (d.map Prod.fst).Nodup) (hmem : p ∈ d) : dictGet d p.1 = some p.2 := by
  induction d with
  | nil => cases hmem
  | cons q d ih =>
    rw [List.map_cons, List.nodup_cons] at hnd
    rw [dictGet_cons]
    rcases List.mem_cons.mp hmem with rfl | hmem
    · simp
    · have hq : ¬ (q.1 == p.1) = true := by
        simp only [beq_iff_eq]
        intro he
        exact hnd.1 (he ▸ List.mem_map_of_mem Prod.fst hmem)
      simp only [hq, Bool.false_eq_true, if_false]
      exact ih hnd.2 hmem

/-! ### `fillCategories` and `allAbsent` lemmas -/

theorem hasKey_iff_key_mem {β : Type} (d : List (PyStr × β)) (k : PyStr) :
    hasKey d k = true ↔ k ∈ d.map Prod.fst := by
  induction d with
  | nil => simp [hasKey]
  | cons p d ih =>
    rw [hasKey_cons, List.map_cons, Bool.or_eq_true, beq_iff_eq, List.mem_cons, ih]
    constructor
    · rintro (h | h)
      · exact Or.inl h.symm
      · exact Or.inr h
    · rintro (h | h)
      · exact Or.inl h.symm
      · exact Or.inr h

theorem fillCategories_get_of_some {cs : List PyStr} {d : PyDict} {k v : PyStr}
    (h : dictGet d k = some v) : dictGet (fillCategories d cs) k = some v := by
  induction cs generalizing d with
  | nil => exact h
  | cons c cs ih =>
    rw [fillCategories]
    by_cases hk : hasKey d c = true
    · rw [if_pos hk]
      exact ih h
    · rw [if_neg hk]
      exact ih (dictGet_append_left h)

theorem fillCategories_get_of_none {cs : List PyStr} {d : PyDict} {k : PyStr}
    (hd : dictGet d k = none) (hmem : k ∈ cs) :
    dictGet (fillCategories d cs) k = some [] := by
  induction cs generalizing d with
  | nil => cases hmem
  | cons c cs ih =>
    rw [fillCategories]
    by_cases hk : hasKey d c = true
    · rw [if_pos hk]
      rcases List.mem_cons.mp hmem with rfl | hmem2
      · rw [dictGet_none_iff] at hd
        rw [hd] at hk
        cases hk
      · exact ih hd hmem2
    · rw [if_neg hk]
      by_cases hck : (c == k) = true
      · apply fillCategories_get_of_some
        rw [dictGet_append_right hd, dictGet_cons]
        simp [hck]
      · have hd2 : dictGet (d ++ [(c, ([] : PyStr))]) k = none := by
          rw [dictGet_append_right hd, dictGet_cons]
          simp only [hck, Bool.false_eq_true, if_false]
          rfl
        have hmem2 : k ∈ cs := by
          rcases List.mem_cons.mp hmem with rfl | h2
          · exact absurd (beq_self_eq_true k) hck
          · exact h2
        exact ih hd2 hmem2

theorem fillCategories_get (obj : PyDict) {cs : List PyStr} {c : PyStr} (hmem : c ∈ cs) :
    dictGet (fillCategories obj cs) c = some ((dictGet obj c).getD []) := by
  cases h : dictGet obj c with
  | none => simpa using fillCategories_get_of_none h hmem
  | some v => simpa using @fillCategories_get_of_some cs obj c v h

theorem allAbsent_get {cs : List PyStr} {c : PyStr} (hmem : c ∈ cs) :
    dictGet (allAbsent cs) c = some [] := by
  simpa [allAbsent, dictGet] using fillCategories_get [] hmem

theorem fillCategories_keys_nodup {cs : List PyStr} {d : PyDict}
    (hnd : (d.map Prod.fst).Nodup) : ((fillCategories d cs).map Prod.fst).Nodup := by
  induction cs generalizing d with
  | nil => exact hnd
  | cons c cs ih =>
    rw [fillCategories]
    by_cases hk : hasKey d c = true
    · rw [if_pos hk]
      exact ih hnd
    · rw [if_neg hk]
      apply ih
      have hc : c ∉ d.map Prod.fst := fun hmem =>
        hk ((hasKey_iff_key_mem d c).mpr hmem)
      simp [List.nodup_append, hnd, hc]

theorem count_one_of_mem_nodup {α : Type} [BEq α] [LawfulBEq α] {l : List α} {a : α}
    (hnd : l.Nodup) (hmem : a ∈ l) : l.count a = 1 := by
  induction l with
  | nil => cases hmem
  | cons b l ih =>
    rw [List.nodup_cons] at hnd
    rw [List.count_cons]
    rcases List.mem_cons.mp hmem with rfl | hmem2
    · rw [List.count_eq_zero.mpr hnd.1]
      simp
    · have hba : ¬ (b == a) = true := by
        simp only [beq_iff_eq]
        rintro rfl
        exact hnd.1 hmem2
      rw [ih hnd.2 hmem2]
      simp [hba]

theorem fillCategories_count_one {obj : PyDict} {cs : List PyStr} {c : PyStr}
    (hnd : (obj.map Prod.fst).Nodup) (hmem : c ∈ cs) :
    ((fillCategories obj cs).map Prod.fst).count c = 1 :=
  count_one_of_mem_nodup (fillCategories_keys_nodup hnd)
    (key_mem_of_dictGet_some (fillCategories_get obj hmem))

/-! ### The batch pipeline: padding loop, parsing loop, reconciliation -/

theorem padLoop_eq (fuel n : Nat) (cats : List PyStr) (results : List PyDict)
    (h : n ≤ fuel + results.length) :
    padLoop fuel results n cats =
      results ++ List.replicate (n - results.length) (allAbsent cats) := by
  induction fuel generalizing results with
  | zero =>
    rw [padLoop]
    have h0 : n - results.length = 0 := by omega
    rw [h0, List.replicate_zero, List.append_nil]
  | succ fuel ih =>
    rw [padLoop]
    by_cases hlen : results.length < n
    · rw [if_pos hlen, ih (results ++ [allAbsent cats]) (by simp; omega)]
      rw [List.append_assoc, List.singleton_append, List.length_append]
      congr 1
      have h1 : n - results.length = (n - (results.length + 1)) + 1 := by omega
      rw [List.length_singleton, h1, List.replicate_succ]
    · rw [if_neg hlen]
      have h0 : n - results.length = 0 := by omega
      rw [h0, List.replicate_zero, List.append_nil]

theorem parseParts_eq (decode : PyStr → Option PyDict) (cats : List PyStr)
    (parts : List PyStr) :
    parseParts decode cats parts =
      ((parts.map pyStrip).filter (fun p => !p.isEmpty)).map
        (fun part => parse_response decode part cats) := by
  induction parts with
  | nil => rfl
  | cons part rest ih =>
    rw [parseParts, List.map_cons, List.filter_cons]
    by_cases hp : (!(pyStrip part).isEmpty) = true
    · rw [if_pos hp, if_pos hp, List.map_cons, ih]
    · rw [if_neg hp, if_neg hp, ih]

/-- The fragment pipeline exactly as the spec's words describe the success
path: split the raw response on the delimiter, trim each segment, discard
segments that are empty after trimming, and parse each remaining segment. -/
def specFragments (decode : PyStr → Option PyDict) (response : PyStr)
    (categories : List PyStr) (delimiter : PyStr) : List PyDict :=
  (((pySplit delimiter response).map pyStrip).filter (fun p => !p.isEmpty)).map
    (fun part => parse_response decode part categories)

/-- The reconciliation policy exactly as the spec's words describe it: with
`M` parsed records and `N` input texts, append all-absent records at the end
until the length is `N` when `M < N`, and keep exactly the first `N` parsed
records when `M ≥ N` (for `M = N` this keeps everything unchanged). -/
def reconcileSpec (parsed : List PyDict) (n : Nat) (categories : List PyStr) :
    List PyDict :=
  if parsed.length < n then
    parsed ++ List.replicate (n - parsed.length) (allAbsent categories)
  else parsed.take n

theorem pad_then_truncate (parsed : List PyDict) (n : Nat) (cats : List PyStr) :
    (if (parsed ++ List.replicate (n - parsed.length) (allAbsent cats)).length > n
     then (parsed ++ List.replicate (n - parsed.length) (allAbsent cats)).take n
     else parsed ++ List.replicate (n - parsed.length) (allAbsent cats)) =
      reconcileSpec parsed n cats := by
  rw [reconcileSpec]
  by_cases hlt : parsed.length < n
  · have hlen : (parsed ++ List.replicate (n - parsed.length) (allAbsent cats)).length = n := by
      rw [List.length_append, List.length_replicate]
      omega
    rw [if_pos hlt, hlen]
    simp
  · have h0 : n - parsed.length = 0 := by omega
    rw [if_neg hlt]
    simp only [h0, List.replicate_zero, List.append_nil]
    by_cases hgt : parsed.length > n
    · rw [if_pos hgt]
    · rw [if_neg hgt]
      have he : parsed.length = n := by omega
      conv_lhs => rw [← @List.take_length PyDict parsed, he]

theorem process_batch_ok_eq (decode : PyStr → Option PyDict) (resp : PyStr)
    (dialogues cats : List PyStr) (delim : PyStr) :
    process_batch_dialogue decode (Except.ok resp) dialogues cats delim =
      reconcileSpec (specFragments decode resp cats delim) dialogues.length cats := by
  show (if (padLoop dialogues.length (parseParts decode cats (pySplit delim resp))
              dialogues.length cats).length > dialogues.length
        then (padLoop dialogues.length (parseParts decode cats (pySplit delim resp))
              dialogues.length cats).take dialogues.length
        else padLoop dialogues.length (parseParts decode cats (pySplit delim resp))
              dialogues.length cats) = _
  rw [padLoop_eq dialogues.length dialogues.length cats
        (parseParts decode cats (pySplit delim resp)) (by omega),
      parseParts_eq]
  exact pad_then_truncate _ _ _

/-! ### Claims about the batch classifier and the response parser -/

/-- **C1**: for every ordered sequence of input texts of length `N` (any
`N ≥ 0`), every category list (in particular every non-empty one) and any
backend outcome — a successful response text or an exception from the model
call — `process_batch_dialogue` returns an ordered sequence of exactly `N`
classification records. -/
theorem process_batch_dialogue_length (decode : PyStr → Option PyDict)
    (backend : Except Unit PyStr) (dialogues cats : List PyStr) (delim : PyStr) :
    (process_batch_dialogue decode backend dialogues cats delim).length
      = dialogues.length := by
  cases backend with
  | error e =>
    show (dialogues.map fun _ => allAbsent cats).length = dialogues.length
    rw [List.length_map]
  | ok resp =>
    rw [process_batch_ok_eq, reconcileSpec]
    by_cases hlt : (specFragments decode resp cats delim).length < dialogues.length
    · rw [if_pos hlt, List.length_append, List.length_replicate]
      omega
    · rw [if_neg hlt, List.length_take]
      omega

/-- **C2**: on a successful backend response, `process_batch_dialogue` equals
the spec-side pipeline: split the raw response on the delimiter, trim each
segment, discard segments empty after trimming (`specFragments`), and then
reconcile — append all-absent records up to `N` when fewer than `N` records
were parsed, keep exactly the first `N` in split order when more were parsed
(`reconcileSpec`). -/
theorem process_batch_dialogue_success_reconciliation (decode : PyStr → Option PyDict)
    (resp : PyStr) (dialogues cats : List PyStr) (delim : PyStr) :
    process_batch_dialogue decode (Except.ok resp) dialogues cats delim =
      reconcileSpec (specFragments decode resp cats delim) dialogues.length cats :=
  process_batch_ok_eq decode resp dialogues cats delim

/-- **C4**: for every category list and every fragment whose content, after
whitespace stripping and code-fence removal, decodes to a JSON object `obj`
(a Python dict, so with unique keys — hypothesis `hwf`), `parse_response`
returns a mapping that contains every listed category as a key exactly once,
where categories missing from `obj` map to `""`, keys present in `obj`
(listed categories and extra keys alike) keep their decoded value. -/
theorem parse_response_decode_success_complete (decode : PyStr → Option PyDict)
    (text : PyStr) (cats : List PyStr) (obj : PyDict)
    (h : decode (cleanFragment text) = some obj)
    (hwf : (obj.map Prod.fst).Nodup) :
    (∀ c ∈ cats, ((parse_response decode text cats).map Prod.fst).count c = 1) ∧
    (∀ c ∈ cats, dictGet obj c = none →
      dictGet (parse_response decode text cats) c = some []) ∧
    (∀ k v, dictGet obj k = some v →
      dictGet (parse_response decode text cats) k = some v) := by
  have he : parse_response decode text cats = fillCategories obj cats := by
    rw [parse_response, h]
  refine ⟨fun c hc => ?_, fun c hc hn => ?_, fun k v hv => ?_⟩
  · rw [he]
    exact fillCategories_count_one hwf hc
  · rw [he]
    exact fillCategories_get_of_none hn hc
  · rw [he]
    exact fillCategories_get_of_some hv

/-- Witness for C4: a decoder that decodes every fragment to the one-entry
object `{"extra": "m"}`, fragment `"x"`, category list `["grammar"]`:
`"grammar"` appears exactly once and maps to `""`, `"extra"` keeps `"m"`. -/
theorem parse_response_decode_success_complete_witness :
    ((parse_response (fun _ => some [("extra".data, "m".data)]) "x".data
        ["grammar".data]).map Prod.fst).count "grammar".data = 1 ∧
    dictGet (parse_response (fun _ => some [("extra".data, "m".data)]) "x".data
        ["grammar".data]) "grammar".data = some [] ∧
    dictGet (parse_response (fun _ => some [("extra".data, "m".data)]) "x".data
        ["grammar".data]) "extra".data = some "m".data := by
  have h := parse_response_decode_success_complete
    (fun _ => some [("extra".data, "m".data)]) "x".data ["grammar".data]
    [("extra".data, "m".data)] rfl (by decide)
  exact ⟨h.1 _ (by decide), h.2.1 _ (by decide) (by decide), h.2.2 _ _ (by decide)⟩

/-- **C5**: if the model backend call raises any exception,
`process_batch_dialogue` does not propagate it and returns one record per
input text, every record mapping every category to `""`. -/
theorem process_batch_dialogue_backend_failure (decode : PyStr → Option PyDict)
    (dialogues cats : List PyStr) (delim : PyStr) :
    (process_batch_dialogue decode (Except.error ()) dialogues cats delim).length
        = dialogues.length ∧
    ∀ r ∈ process_batch_dialogue decode (Except.error ()) dialogues cats delim,
      ∀ c ∈ cats, dictGet r c = some [] := by
  constructor
  · show (dialogues.map fun _ => allAbsent cats).length = dialogues.length
    rw [List.length_map]
  · intro r hr c hc
    rcases List.mem_map.mp hr with ⟨x, _, rfl⟩
    exact allAbsent_get hc

/-- Witness for C5: one input text, category list `["grammar"]`; the only
returned record is all-absent and maps `"grammar"` to `""`. -/
theorem process_batch_dialogue_backend_failure_witness :
    allAbsent ["grammar".data] ∈
        process_batch_dialogue (fun _ => none) (Except.error ())
          ["t".data] ["grammar".data] "-----".data ∧
    "grammar".data ∈ ["grammar".data] ∧
    dictGet (allAbsent ["grammar".data]) "grammar".data = some [] := by
  refine ⟨by decide, by decide, ?_⟩
  exact (process_batch_dialogue_backend_failure (fun _ => none) ["t".data]
    ["grammar".data] "-----".data).2 _ (by decide) _ (by decide)

/-! ### Claims C3 and C6, settled over the full parser -/

theorem parse_response_j_obj_restriction (decode : PyStr → Option PyDict)
    (text : PyStr) (cats : List PyStr) :
    parse_response_j (fun s => (decode s).map JVal.obj) text cats
      = JVal.obj (parse_response decode text cats) := by
  cases hd : decode (cleanFragment text) with
  | none =>
    rw [parse_response_j, parse_response, hd]
    rfl
  | some d =>
    rw [parse_response_j, parse_response, hd]
    rfl

theorem map_const_eq_some {α β : Type} {o : Option α} {b r : β}
    (h : o.map (fun _ => b) = some r) : r = b := by
  cases o with
  | none => exact Option.noConfusion h
  | some a =>
    injection h with h2
    exact h2.symm

theorem fillLoop_some_cases (v r : JVal) (cats : List PyStr)
    (h : fillLoop v cats = some r) :
    (∃ d : PyDict, v = JVal.obj d ∧ r = JVal.obj (fillCategories d cats)) ∨
      (r = v ∧ ∀ d : PyDict, v ≠ JVal.obj d) := by
  cases v with
  | obj d =>
    left
    refine ⟨d, rfl, ?_⟩
    have h2 : some (JVal.obj (fillCategories d cats)) = some r := h
    injection h2 with h3
    exact h3.symm
  | str s => exact Or.inr ⟨map_const_eq_some h, fun d hd => JVal.noConfusion hd⟩
  | arr elems => exact Or.inr ⟨map_const_eq_some h, fun d hd => JVal.noConfusion hd⟩
  | other => exact Or.inr ⟨map_const_eq_some h, fun d hd => JVal.noConfusion hd⟩

theorem parseParts_j_eq (decodeJ : PyStr → Option JVal) (cats : List PyStr)
    (parts : List PyStr) :
    parseParts_j decodeJ cats parts =
      ((parts.map pyStrip).filter (fun p => !p.isEmpty)).map
        (fun part => parse_response_j decodeJ part cats) := by
  induction parts with
  | nil => rfl
  | cons part rest ih =>
    rw [parseParts_j, List.map_cons, List.filter_cons]
    by_cases hp : (!(pyStrip part).isEmpty) = true
    · rw [if_pos hp, if_pos hp, List.map_cons, ih]
    · rw [if_neg hp, if_neg hp, ih]

theorem padLoopJ_mem (fuel n : Nat) (cats : List PyStr) :
    ∀ (results : List JVal) (r : JVal), r ∈ padLoopJ fuel results n cats →
      r ∈ results ∨ r = JVal.obj (allAbsent cats) := by
  induction fuel with
  | zero => exact fun results r hr => Or.inl hr
  | succ fuel ih =>
    intro results r hr
    rw [padLoopJ] at hr
    by_cases hlen : results.length < n
    · rw [if_pos hlen] at hr
      rcases ih _ r hr with hmem | heq
      · rcases List.mem_append.mp hmem with h1 | h1
        · exact Or.inl h1
        · exact Or.inr (List.mem_singleton.mp h1)
      · exact Or.inr heq
    · rw [if_neg hlen] at hr
      exact Or.inl hr

/-- **C3 counterexample**: the claim covers "non-object JSON" among the
decode failures, but a fragment that decodes to the JSON *string*
`"grammar problems"` is returned unchanged for categories `["grammar"]`:
`json.loads` succeeds, Python's `"grammar" in "grammar problems"` substring
test is true, so the loop performs no assignment, raises nothing, and the
raw string — not the all-absent mapping — is returned. -/
theorem parse_response_nonobject_counterexample :
    parse_response_j
        (fun s => if s = "\"grammar problems\"".data
                  then some (JVal.str "grammar problems".data) else none)
        "\"grammar problems\"".data ["grammar".data]
      = JVal.str "grammar problems".data ∧
    parse_response_j
        (fun s => if s = "\"grammar problems\"".data
                  then some (JVal.str "grammar problems".data) else none)
        "\"grammar problems\"".data ["grammar".data]
      ≠ JVal.obj (allAbsent ["grammar".data]) := by
  have h1 : parse_response_j
      (fun s => if s = "\"grammar problems\"".data
                then some (JVal.str "grammar problems".data) else none)
      "\"grammar problems\"".data ["grammar".data]
    = JVal.str "grammar problems".data := rfl
  exact ⟨h1, fun h2 => JVal.noConfusion (h1.symm.trans h2)⟩

/-- **C3 (amended)**: for every category list and every fragment whose
content, after code-fence removal, either fails to decode (`json.loads`
raises — malformed JSON or any parsing exception) or decodes to a value on
which the category loop raises (a non-object whose membership test fails for
some category, or does not support the membership test at all — numbers,
booleans, `null`), `parse_response` returns the all-absent mapping in which
every given category maps to `""`, and never raises (the embedding is a
total function mirroring the catch-all `except`). Dropped from the original
claim: a non-object decode for which *every* listed category passes Python's
membership test is returned unchanged instead (see the counterexample). -/
theorem parse_response_j_failure_all_absent (decodeJ : PyStr → Option JVal)
    (text : PyStr) (cats : List PyStr)
    (h : ∀ v, decodeJ (cleanFragment text) = some v → fillLoop v cats = none) :
    parse_response_j decodeJ text cats = JVal.obj (allAbsent cats) ∧
      ∀ c ∈ cats, dictGet (allAbsent cats) c = some [] := by
  constructor
  · rw [parse_response_j]
    cases hd : decodeJ (cleanFragment text) with
    | none => rfl
    | some v =>
      have hfl := h v hd
      show (match fillLoop v cats with
            | some r => r
            | none => JVal.obj (allAbsent cats)) = JVal.obj (allAbsent cats)
      rw [hfl]
  · exact fun c hc => allAbsent_get hc

/-- Witness for C3 (amended): a fragment decoding to a number
(`JVal.other`), category list `["grammar"]` — the `in` test raises, the
`except` branch yields the all-absent record. -/
theorem parse_response_j_failure_all_absent_witness :
    parse_response_j (fun _ => some JVal.other) "42".data ["grammar".data]
      = JVal.obj (allAbsent ["grammar".data]) ∧
    dictGet (allAbsent ["grammar".data]) "grammar".data = some [] := by
  have h := parse_response_j_failure_all_absent (fun _ => some JVal.other)
    "42".data ["grammar".data]
    (by
      intro v hv
      have hv2 : JVal.other = v := Option.some.inj hv
      rw [← hv2]
      rfl)
  exact ⟨h.1, h.2 _ (by decide)⟩

/-- **C6 counterexample**: a batch whose single fragment decodes to the JSON
string `"grammar problems"` (categories `["grammar"]`): the pipeline's
returned sequence contains the bare string, an entry that carries no
category entries at all — the claimed every-record-has-every-category
invariant fails on the parsed-fragment path. -/
theorem process_batch_dialogue_nonobject_counterexample :
    process_batch_dialogue_j
        (fun s => if s = "\"grammar problems\"".data
                  then some (JVal.str "grammar problems".data) else none)
        (Except.ok "\"grammar problems\"".data)
        ["t".data] ["grammar".data] "-----".data
      = [JVal.str "grammar problems".data] ∧
    recordHasCategory (JVal.str "grammar problems".data) "grammar".data = false :=
  ⟨rfl, rfl⟩

/-- **C6 (amended)**: every entry produced by any path of the pipeline —
parsed fragment, per-fragment parse-failure fallback, whole-batch
backend-failure fallback, or reconciliation padding — is either a record
`fillCategories obj cats` for some decoded object `obj` (`obj = []` on the
fallback and padding paths), which contains an entry for every category of
the run with absent categories mapped to `""` and present ones keeping their
decoded value; or — the case the original claim missed — a *non-object* JSON
value returned unchanged by the parser because every category passed
Python's membership test on it (such an entry carries no category entries). -/
theorem process_batch_dialogue_j_records_complete (decodeJ : PyStr → Option JVal)
    (backend : Except Unit PyStr) (dialogues cats : List PyStr) (delim : PyStr) :
    ∀ r ∈ process_batch_dialogue_j decodeJ backend dialogues cats delim,
      (∃ obj : PyDict, r = JVal.obj (fillCategories obj cats) ∧
          ∀ c ∈ cats, dictGet (fillCategories obj cats) c
            = some ((dictGet obj c).getD [])) ∨
      ((∀ d : PyDict, r ≠ JVal.obj d) ∧ fillLoop r cats = some r) := by
  intro r hr
  cases backend with
  | error e =>
    rcases List.mem_map.mp hr with ⟨x, _, rfl⟩
    exact Or.inl ⟨[], rfl, fun c hc => fillCategories_get [] hc⟩
  | ok resp =>
    have hr2 : r ∈ padLoopJ dialogues.length
        (parseParts_j decodeJ cats (pySplit delim resp)) dialogues.length cats := by
      by_cases hgt : (padLoopJ dialogues.length
          (parseParts_j decodeJ cats (pySplit delim resp))
          dialogues.length cats).length > dialogues.length
      · have he : process_batch_dialogue_j decodeJ (Except.ok resp) dialogues cats delim
            = (padLoopJ dialogues.length
                (parseParts_j decodeJ cats (pySplit delim resp))
                dialogues.length cats).take dialogues.length := by
          show (if (padLoopJ dialogues.length
                (parseParts_j decodeJ cats (pySplit delim resp))
                dialogues.length cats).length > dialogues.length
              then (padLoopJ dialogues.length
                (parseParts_j decodeJ cats (pySplit delim resp))
                dialogues.length cats).take dialogues.length
              else padLoopJ dialogues.length
                (parseParts_j decodeJ cats (pySplit delim resp))
                dialogues.length cats) = _
          rw [if_pos hgt]
        rw [he] at hr
        exact List.mem_of_mem_take hr
      · have he : process_batch_dialogue_j decodeJ (Except.ok resp) dialogues cats delim
            = padLoopJ dialogues.length
                (parseParts_j decodeJ cats (pySplit delim resp))
                dialogues.length cats := by
          show (if (padLoopJ dialogues.length
                (parseParts_j decodeJ cats (pySplit delim resp))
                dialogues.length cats).length > dialogues.length
              then (padLoopJ dialogues.length
                (parseParts_j decodeJ cats (pySplit delim resp))
                dialogues.length cats).take dialogues.length
              else padLoopJ dialogues.length
                (parseParts_j decodeJ cats (pySplit delim resp))
                dialogues.length cats) = _
          rw [if_neg hgt]
        rw [he] at hr
        exact hr
    rcases padLoopJ_mem _ _ _ _ r hr2 with hmem | heq
    · rw [parseParts_j_eq] at hmem
      rcases List.mem_map.mp hmem with ⟨part, _, rfl⟩
      cases hdec : decodeJ (cleanFragment part) with
      | none =>
        have he : parse_response_j decodeJ part cats = JVal.obj (allAbsent cats) := by
          rw [parse_response_j, hdec]
        rw [he]
        exact Or.inl ⟨[], rfl, fun c hc => fillCategories_get [] hc⟩
      | some v =>
        cases hfl : fillLoop v cats with
        | none =>
          have he : parse_response_j decodeJ part cats = JVal.obj (allAbsent cats) := by
            rw [parse_response_j, hdec]
            show (match fillLoop v cats with
                  | some r => r
                  | none => JVal.obj (allAbsent cats)) = JVal.obj (allAbsent cats)
            rw [hfl]
          rw [he]
          exact Or.inl ⟨[], rfl, fun c hc => fillCategories_get [] hc⟩
        | some r2 =>
          have he : parse_response_j decodeJ part cats = r2 := by
            rw [parse_response_j, hdec]
            show (match fillLoop v cats with
                  | some r => r
                  | none => JVal.obj (allAbsent cats)) = r2
            rw [hfl]
          rw [he]
          rcases fillLoop_some_cases v r2 cats hfl with ⟨d, hv, hr2⟩ | ⟨hrv, hne⟩
          · exact Or.inl ⟨d, hr2, fun c hc => fillCategories_get d hc⟩
          · subst hrv
            exact Or.inr ⟨hne, hfl⟩
    · rw [heq]
      exact Or.inl ⟨[], rfl, fun c hc => fillCategories_get [] hc⟩

/-- Witness for C6 (amended): the backend-failure path with one text and
category list `["grammar"]` — the single returned entry is the all-absent
record, which falls in the object disjunct. -/
theorem process_batch_dialogue_j_records_complete_witness :
    JVal.obj (allAbsent ["grammar".data]) ∈
        process_batch_dialogue_j (fun _ => none) (Except.error ())
          ["t".data] ["grammar".data] "-----".data ∧
    ((∃ obj : PyDict, JVal.obj (allAbsent ["grammar".data])
          = JVal.obj (fillCategories obj ["grammar".data]) ∧
        ∀ c ∈ ["grammar".data], dictGet (fillCategories obj ["grammar".data]) c
          = some ((dictGet obj c).getD [])) ∨
      ((∀ d : PyDict, JVal.obj (allAbsent ["grammar".data]) ≠ JVal.obj d) ∧
        fillLoop (JVal.obj (allAbsent ["grammar".data])) ["grammar".data]
          = some (JVal.obj (allAbsent ["grammar".data])))) := by
  have hmem : JVal.obj (allAbsent ["grammar".data]) ∈
      process_batch_dialogue_j (fun _ => none) (Except.error ())
        ["t".data] ["grammar".data] "-----".data := by
    show JVal.obj (allAbsent ["grammar".data]) ∈
        [JVal.obj (allAbsent ["grammar".data])]
    exact List.mem_singleton.mpr rfl
  exact ⟨hmem, process_batch_dialogue_j_records_complete (fun _ => none)
    (Except.error ()) ["t".data] ["grammar".data] "-----".data _ hmem⟩

/-! ### Counting lemmas for `calculate_category_counts` -/

theorem bumpCount_keys (counts : List (PyStr × Nat)) (c : PyStr) :
    (bumpCount counts c).map Prod.fst = counts.map Prod.fst := by
  induction counts with
  | nil => rfl
  | cons p ps ih =>
    show ((if p.1 == c then (p.1, p.2 + 1) else p) :: bumpCount ps c).map Prod.fst = _
    rw [List.map_cons, List.map_cons, ih]
    congr 1
    by_cases hp : (p.1 == c) = true
    · rw [if_pos hp]
    · rw [if_neg hp]

theorem bumpCount_get (counts : List (PyStr × Nat)) (c k : PyStr) :
    dictGet (bumpCount counts c) k =
      (dictGet counts k).map (fun v => if k = c then v + 1 else v) := by
  induction counts with
  | nil => rfl
  | cons p ps ih =>
    show dictGet ((if p.1 == c then (p.1, p.2 + 1) else p) :: bumpCount ps c) k = _
    rw [dictGet_cons, dictGet_cons]
    have hfst : (if p.1 == c then (p.1, p.2 + 1) else p).1 = p.1 := by
      by_cases hp : (p.1 == c) = true
      · rw [if_pos hp]
      · rw [if_neg hp]
    rw [hfst]
    by_cases hpk : (p.1 == k) = true
    · rw [if_pos hpk, if_pos hpk, Option.map_some']
      congr 1
      have hk : p.1 = k := beq_iff_eq.mp hpk
      subst hk
      by_cases hc : (p.1 == c) = true
      · rw [if_pos hc, if_pos (beq_iff_eq.mp hc)]
      · rw [if_neg hc, if_neg (fun h => hc (beq_iff_eq.mpr h))]
    · rw [if_neg hpk, if_neg hpk, ih]

theorem countCatsLoop_keys (r : PyDict) (cs : List PyStr)
    (counts : List (PyStr × Nat)) :
    (countCatsLoop counts r cs).map Prod.fst = counts.map Prod.fst := by
  induction cs generalizing counts with
  | nil => rfl
  | cons c cs ih =>
    show (countCatsLoop
        (if dictGet r c == some ['1'] then bumpCount counts c else counts) r cs).map
          Prod.fst = _
    rw [ih]
    by_cases hf : (dictGet r c == some ['1']) = true
    · rw [if_pos hf, bumpCount_keys]
    · rw [if_neg hf]

theorem countResultsLoop_keys (cs : List PyStr) (rs : List PyDict)
    (counts : List (PyStr × Nat)) :
    (countResultsLoop counts cs rs).map Prod.fst = counts.map Prod.fst := by
  induction rs generalizing counts with
  | nil => rfl
  | cons r rs ih =>
    show (countResultsLoop (countCatsLoop counts r cs) cs rs).map Prod.fst = _
    rw [ih, countCatsLoop_keys]

theorem countCatsLoop_get (r : PyDict) (cs : List PyStr)
    (counts : List (PyStr × Nat)) (k : PyStr) (hnd : cs.Nodup) :
    dictGet (countCatsLoop counts r cs) k =
      (dictGet counts k).map
        (fun v => if k ∈ cs ∧ dictGet r k = some ['1'] then v + 1 else v) := by
  induction cs generalizing counts with
  | nil =>
    show dictGet counts k = _
    cases dictGet counts k <;> simp
  | cons c cs ih =>
    rw [List.nodup_cons] at hnd
    show dictGet (countCatsLoop
        (if dictGet r c == some ['1'] then bumpCount counts c else counts) r cs) k = _
    rw [ih _ hnd.2]
    by_cases hkc : k = c
    · subst hkc
      have hnotin : k ∉ cs := hnd.1
      by_cases hflag : dictGet r k = some ['1']
      · rw [if_pos (beq_iff_eq.mpr hflag), bumpCount_get]
        cases dictGet counts k <;> simp [hnotin, hflag]
      · rw [if_neg (fun h => hflag (beq_iff_eq.mp h))]
        cases dictGet counts k <;> simp [hflag]
    · have hstep : dictGet
          (if dictGet r c == some ['1'] then bumpCount counts c else counts) k =
            dictGet counts k := by
        by_cases hfc : (dictGet r c == some ['1']) = true
        · rw [if_pos hfc, bumpCount_get]
          cases dictGet counts k <;> simp [hkc]
        · rw [if_neg hfc]
      rw [hstep]
      cases dictGet counts k <;> simp [List.mem_cons, hkc]

theorem countResultsLoop_get (cs : List PyStr) (rs : List PyDict)
    (counts : List (PyStr × Nat)) (k : PyStr) (hnd : cs.Nodup) (hmem : k ∈ cs) :
    dictGet (countResultsLoop counts cs rs) k =
      (dictGet counts k).map
        (fun v => v + rs.countP (fun r => dictGet r k == some ['1'])) := by
  induction rs generalizing counts with
  | nil =>
    show dictGet counts k = _
    cases dictGet counts k <;> simp
  | cons r rs ih =>
    show dictGet (countResultsLoop (countCatsLoop counts r cs) cs rs) k = _
    rw [ih, countCatsLoop_get r cs counts k hnd, List.countP_cons]
    by_cases hflag : dictGet r k = some ['1']
    · have hb : (dictGet r k == some ['1']) = true := beq_iff_eq.mpr hflag
      cases dictGet counts k with
      | none => simp
      | some v =>
        simp only [Option.map_some']
        congr 1
        rw [if_pos ⟨hmem, hflag⟩, if_pos hb]
        omega
    · have hb : ¬ (dictGet r k == some ['1']) = true := fun h => hflag (beq_iff_eq.mp h)
      cases dictGet counts k with
      | none => simp
      | some v =>
        simp only [Option.map_some']
        congr 1
        rw [if_neg (fun h => hflag h.2), if_neg hb]
        omega

theorem initCountsLoop_eq (cs : List PyStr) (acc : List (PyStr × Nat))
    (hnd : cs.Nodup) (hdisj : ∀ c ∈ cs, hasKey acc c = false) :
    initCountsLoop acc cs = acc ++ cs.map (fun c => (c, 0)) := by
  induction cs generalizing acc with
  | nil =>
    show acc = acc ++ []
    rw [List.append_nil]
  | cons c cs ih =>
    rw [List.nodup_cons] at hnd
    show initCountsLoop (if hasKey acc c then acc else acc ++ [(c, 0)]) cs = _
    rw [if_neg (by rw [hdisj c (List.mem_cons_self c cs)]; exact Bool.false_ne_true)]
    rw [ih (acc ++ [(c, 0)]) hnd.2 ?_]
    · rw [List.append_assoc, List.singleton_append, List.map_cons]
    · intro c2 hc2
      have h1 : hasKey acc c2 = false := hdisj c2 (List.mem_cons_of_mem c hc2)
      have h2 : c ≠ c2 := fun he => hnd.1 (he ▸ hc2)
      show (acc ++ [(c, 0)]).any (fun p => p.1 == c2) = false
      rw [List.any_append]
      have h1a : acc.any (fun p => p.1 == c2) = false := h1
      rw [h1a]
      simp [h2]

theorem dictGet_map_zero (cs : List PyStr) (k : PyStr) (hmem : k ∈ cs) :
    dictGet (cs.map (fun c => (c, (0 : Nat)))) k = some 0 := by
  induction cs with
  | nil => cases hmem
  | cons c cs ih =>
    rw [List.map_cons, dictGet_cons]
    by_cases hck : (c == k) = true
    · rw [if_pos hck]
    · rw [if_neg hck]
      refine ih ?_
      rcases List.mem_cons.mp hmem with rfl | h
      · exact absurd (beq_self_eq_true k) hck
      · exact h

theorem calculate_counts_keys_values (results : List PyDict) (cats : List PyStr)
    (hnd : cats.Nodup) :
    (calculate_category_counts results cats).map Prod.fst = cats ∧
    ∀ c ∈ cats, dictGet (calculate_category_counts results cats) c =
      some (results.countP (fun r => dictGet r c == some ['1'])) := by
  have hinit : initCounts cats = cats.map (fun c => (c, 0)) := by
    rw [initCounts, initCountsLoop_eq cats [] hnd (fun c _ => rfl), List.nil_append]
  constructor
  · show (countResultsLoop (initCounts cats) cats results).map Prod.fst = cats
    rw [countResultsLoop_keys, hinit, List.map_map]
    exact List.map_id' cats
  · intro c hc
    show dictGet (countResultsLoop (initCounts cats) cats results) c = _
    rw [countResultsLoop_get cats results _ c hnd hc, hinit, dictGet_map_zero cats c hc]
    simp

/-! ### Claims about `calculate_category_counts` -/

/-- **C7 counterexample**: with the duplicated category list `["a", "a"]` and
one record flagging `"a"`, the stored value for `"a"` is 2 (the loop
increments the count once per occurrence of the category in the list), while
only one record has flag `"1"` — so, quantified over every category list as
the claim states it, "each category's value equals the number of records
whose flag equals `"1"`" is false. -/
theorem calculate_category_counts_duplicate_counterexample :
    dictGet (calculate_category_counts [[("a".data, "1".data)]]
        ["a".data, "a".data]) "a".data
      ≠ some (List.countP (fun r => dictGet r "a".data == some ['1'])
          [[("a".data, "1".data)]]) ∧
    dictGet (calculate_category_counts [[("a".data, "1".data)]]
        ["a".data, "a".data]) "a".data = some 2 ∧
    List.countP (fun r => dictGet r "a".data == some ['1'])
        [[("a".data, "1".data)]] = 1 := by
  decide

/-- **C7 (amended)**: for every list of records and every *duplicate-free*
category list — the spec's data model requires category entries to be unique,
but the claim's universal quantification over all category lists fails on
duplicates — `calculate_category_counts` returns a mapping whose keys are
exactly the given categories (in order), where each category's value equals
the number of records whose flag for that category is exactly `"1"` (any
other value, or a missing key, is not counted). Every category is present in
the output (with `countP = 0` when no record is flagged, in particular for
the empty record list). -/
theorem calculate_category_counts_nodup_spec (results : List PyDict)
    (cats : List PyStr) (hnd : cats.Nodup) :
    (calculate_category_counts results cats).map Prod.fst = cats ∧
    ∀ c ∈ cats, dictGet (calculate_category_counts results cats) c =
      some (results.countP (fun r => dictGet r c == some ['1'])) :=
  calculate_counts_keys_values results cats hnd

/-- Witness for C7 (amended) at the singleton category list `["x"]` with one
flagged record. -/
theorem calculate_category_counts_nodup_spec_witness :
    (["x".data] : List PyStr).Nodup ∧
    (calculate_category_counts [[("x".data, "1".data)]] ["x".data]).map Prod.fst
        = ["x".data] ∧
    dictGet (calculate_category_counts [[("x".data, "1".data)]] ["x".data]) "x".data
      = some (List.countP (fun r => dictGet r "x".data == some ['1'])
          [[("x".data, "1".data)]]) := by
  have h := calculate_category_counts_nodup_spec [[("x".data, "1".data)]]
    ["x".data] (by decide)
  exact ⟨by decide, h.1, h.2 _ (by decide)⟩

/-- **C10 counterexample**: with the duplicated category list `["b", "b"]`
and two records flagging `"b"`, the stored value is 4, which exceeds the
number of records (2) — so, quantified over every category list as the claim
states it, "each value is at most the number of records" is false. -/
theorem calculate_category_counts_bound_counterexample :
    ¬ ∀ p ∈ calculate_category_counts
        [[("b".data, "1".data)], [("b".data, "1".data)]] ["b".data, "b".data],
        p.2 ≤ List.length [[("b".data, "1".data)], [("b".data, "1".data)]] := by
  decide

/-- **C10 (amended)**: for every list of records and every *duplicate-free*
category list (see C7's counterexample for why duplicates must be excluded),
every value in the mapping returned by `calculate_category_counts` is at most
the number of records. (Values are naturals, hence non-negative by type.) -/
theorem calculate_category_counts_value_le (results : List PyDict)
    (cats : List PyStr) (hnd : cats.Nodup) :
    ∀ p ∈ calculate_category_counts results cats, p.2 ≤ results.length := by
  intro p hp
  obtain ⟨hkeys, hvals⟩ := calculate_counts_keys_values results cats hnd
  have hmemk : p.1 ∈ cats := hkeys ▸ List.mem_map_of_mem Prod.fst hp
  have hnodk : ((calculate_category_counts results cats).map Prod.fst).Nodup := by
    rw [hkeys]
    exact hnd
  have hget := dictGet_of_mem_nodup hnodk hp
  rw [hvals p.1 hmemk] at hget
  injection hget with hv
  rw [← hv]
  exact List.countP_le_length _

/-- Witness for C10 (amended): one flagged record, category list `["x"]`;
the single entry `("x", 1)` satisfies `1 ≤ 1`. -/
theorem calculate_category_counts_value_le_witness :
    (["x".data] : List PyStr).Nodup ∧
    ("x".data, 1) ∈ calculate_category_counts [[("x".data, "1".data)]] ["x".data] ∧
    (("x".data, 1) : PyStr × Nat).2 ≤ List.length [[("x".data, "1".data)]] :=
  ⟨by decide, by decide,
    calculate_category_counts_value_le [[("x".data, "1".data)]] ["x".data]
      (by decide) ("x".data, 1) (by decide)⟩

/-! ### `dictSet` and `formatLoop` lemmas -/

theorem dictSet_map_get_self {β : Type} {d : List (PyStr × β)} {k : PyStr} (v : β)
    (h : hasKey d k = true) :
    dictGet (d.map (fun p => if p.1 == k then (p.1, v) else p)) k = some v := by
  induction d with
  | nil => simp [hasKey] at h
  | cons p ps ih =>
    rw [List.map_cons, dictGet_cons]
    have hfst : (if p.1 == k then (p.1, v) else p).1 = p.1 := by
      by_cases hp : (p.1 == k) = true
      · rw [if_pos hp]
      · rw [if_neg hp]
    rw [hfst]
    by_cases hp : (p.1 == k) = true
    · rw [if_pos hp, if_pos hp]
    · rw [if_neg hp]
      apply ih
      rw [hasKey_cons] at h
      simpa [hp] using h

theorem dictSet_get_self {β : Type} (d : List (PyStr × β)) (k : PyStr) (v : β) :
    dictGet (dictSet d k v) k = some v := by
  rw [dictSet]
  by_cases hk : hasKey d k = true
  · rw [if_pos hk]
    exact dictSet_map_get_self v hk
  · rw [if_neg hk]
    have hfalse : hasKey d k = false := by
      cases hb : hasKey d k
      · rfl
      · exact absurd hb hk
    rw [dictGet_append_right ((dictGet_none_iff d k).mpr hfalse), dictGet_cons]
    rw [if_pos (beq_self_eq_true k)]

theorem dictSet_map_get_other {β : Type} {d : List (PyStr × β)} {k k' : PyStr}
    (v : β) (hne : k' ≠ k) :
    dictGet (d.map (fun p => if p.1 == k then (p.1, v) else p)) k' = dictGet d k' := by
  induction d with
  | nil => rfl
  | cons p ps ih =>
    rw [List.map_cons, dictGet_cons, dictGet_cons]
    have hfst : (if p.1 == k then (p.1, v) else p).1 = p.1 := by
      by_cases hp : (p.1 == k) = true
      · rw [if_pos hp]
      · rw [if_neg hp]
    rw [hfst]
    by_cases hp : (p.1 == k') = true
    · rw [if_pos hp, if_pos hp]
      have hpk : ¬ (p.1 == k) = true := fun h2 =>
        hne ((beq_iff_eq.mp hp) ▸ (beq_iff_eq.mp h2))
      rw [if_neg hpk]
    · rw [if_neg hp, if_neg hp]
      exact ih

theorem dictSet_get_other {β : Type} (d : List (PyStr × β)) (k : PyStr) (v : β)
    (k' : PyStr) (hne : k' ≠ k) :
    dictGet (dictSet d k v) k' = dictGet d k' := by
  rw [dictSet]
  by_cases hk : hasKey d k = true
  · rw [if_pos hk]
    exact dictSet_map_get_other v hne
  · rw [if_neg hk]
    cases hd : dictGet d k' with
    | some w => exact dictGet_append_left hd
    | none =>
      rw [dictGet_append_right hd, dictGet_cons]
      rw [if_neg (fun h => hne (beq_iff_eq.mp h).symm)]
      rfl

theorem dictSet_keys_update {β : Type} (d : List (PyStr × β)) (k : PyStr) (v : β) :
    (d.map (fun p => if p.1 == k then (p.1, v) else p)).map Prod.fst
      = d.map Prod.fst := by
  induction d with
  | nil => rfl
  | cons p ps ih =>
    rw [List.map_cons, List.map_cons, List.map_cons, ih]
    congr 1
    by_cases hp : (p.1 == k) = true
    · rw [if_pos hp]
    · rw [if_neg hp]

theorem hasKey_dictSet_iff {β : Type} (d : List (PyStr × β)) (k : PyStr) (v : β)
    (k' : PyStr) :
    hasKey (dictSet d k v) k' = true ↔ (hasKey d k' = true ∨ k' = k) := by
  rw [dictSet]
  by_cases hk : hasKey d k = true
  · rw [if_pos hk]
    rw [hasKey_iff_key_mem, dictSet_keys_update, ← hasKey_iff_key_mem]
    constructor
    · exact Or.inl
    · rintro (h | rfl)
      · exact h
      · exact hk
  · rw [if_neg hk]
    rw [hasKey_iff_key_mem, List.map_append, List.mem_append, ← hasKey_iff_key_mem]
    simp

theorem formatLoop_values (result : PyDict) (cs : List PyStr) :
    ∀ acc : PyDict, (∀ k v, dictGet acc k = some v → v = glyphFor result k) →
    ∀ k v, dictGet (formatLoop acc result cs) k = some v → v = glyphFor result k := by
  induction cs with
  | nil => exact fun acc hinv => hinv
  | cons c cs ih =>
    intro acc hinv k v h
    refine ih (dictSet acc c (glyphFor result c)) ?_ k v h
    intro k2 v2 h2
    by_cases hk2 : k2 = c
    · subst hk2
      rw [dictSet_get_self] at h2
      injection h2 with h3
      rw [← h3]
    · rw [dictSet_get_other _ _ _ _ hk2] at h2
      exact hinv k2 v2 h2

theorem formatLoop_hasKey (result : PyDict) (cs : List PyStr) :
    ∀ acc : PyDict, ∀ k, (hasKey acc k = true ∨ k ∈ cs) →
    hasKey (formatLoop acc result cs) k = true := by
  induction cs with
  | nil =>
    intro acc k h
    rcases h with h | h
    · exact h
    · cases h
  | cons c cs ih =>
    intro acc k h
    refine ih (dictSet acc c (glyphFor result c)) k ?_
    rcases h with h | h
    · exact Or.inl ((hasKey_dictSet_iff acc c _ k).mpr (Or.inl h))
    · rcases List.mem_cons.mp h with rfl | h2
      · exact Or.inl ((hasKey_dictSet_iff acc k _ k).mpr (Or.inr rfl))
      · exact Or.inr h2

/-! ### Claim about `format_category_result` -/

/-- **C8**: for every record and every category list,
`format_category_result` returns a mapping that assigns the fixed display
glyph `"✓"` to each category whose flag in the record is exactly `"1"` and
the empty string to each category with any other flag (including `""` and a
missing key). The source reads `result` only through `result.get` and writes
into a fresh dict, so the embedding is a pure function of the record: the
input record cannot be and is not mutated. -/
theorem format_category_result_spec (result : PyDict) (cats : List PyStr) :
    ∀ c ∈ cats, dictGet (format_category_result result cats) c =
      some (if dictGet result c = some ['1'] then checkGlyph else []) := by
  intro c hc
  have hkey : hasKey (format_category_result result cats) c = true :=
    formatLoop_hasKey result cats [] c (Or.inr hc)
  rcases hasKey_exists_get hkey with ⟨v, hv⟩
  have hval : v = glyphFor result c :=
    formatLoop_values result cats []
      (fun k v h => by simp [dictGet] at h) c v hv
  rw [hv, hval, glyphFor]
  by_cases hflag : dictGet result c = some ['1']
  · rw [if_pos (beq_iff_eq.mpr hflag), if_pos hflag]
  · rw [if_neg (fun h => hflag (beq_iff_eq.mp h)), if_neg hflag]

/-- Witness for C8: record `{"a": "1"}` with categories `["a", "b"]`:
`"a"` is displayed with the glyph, `"b"` with the empty string. -/
theorem format_category_result_spec_witness :
    "a".data ∈ ["a".data, "b".data] ∧
    dictGet (format_category_result [("a".data, "1".data)] ["a".data, "b".data])
        "a".data
      = some (if dictGet [("a".data, "1".data)] "a".data = some ['1']
              then checkGlyph else []) ∧
    dictGet (format_category_result [("a".data, "1".data)] ["a".data, "b".data])
        "b".data
      = some (if dictGet [("a".data, "1".data)] "b".data = some ['1']
              then checkGlyph else []) := by
  refine ⟨by decide, ?_, ?_⟩
  · exact format_category_result_spec [("a".data, "1".data)] ["a".data, "b".data]
      _ (by decide)
  · exact format_category_result_spec [("a".data, "1".data)] ["a".data, "b".data]
      _ (by decide)

/-! ### Claims about the category-update handler -/

theorem parseCategoriesText_entries (text : PyStr) :
    ∀ c ∈ parseCategoriesText text,
      c ≠ [] ∧ ∃ line ∈ pySplit newline text, c = pyStrip line := by
  intro c hc
  rw [parseCategoriesText] at hc
  rcases List.mem_filter.mp hc with ⟨hmap, hne⟩
  rcases List.mem_map.mp hmap with ⟨line, hline, rfl⟩
  refine ⟨?_, line, hline, rfl⟩
  intro h0
  rw [h0] at hne
  exact absurd hne (by decide)

/-- **C9 counterexample**: the text-box content `"a\na"` parses to
`["a", "a"]`, the update is accepted, and the resulting active category
sequence contains the entry `"a"` twice — the handler never deduplicates, so
the claimed uniqueness of entries is false. -/
theorem update_categories_duplicate_counterexample :
    update_categories "a\na".data ["x".data] = ["a".data, "a".data] ∧
    ¬ (update_categories "a\na".data ["x".data]).Nodup := by
  decide

/-- **C9 (amended)**: after any user update of the category list from the
newline-delimited text input, starting from a non-empty previous category
list: the resulting active sequence is non-empty; an update whose parsed
entry list is empty is rejected and leaves the previous list unchanged; an
accepted update replaces the list with exactly the parsed entries; and every
parsed entry is a non-empty string that is the whitespace-trimmed form of one
line of the input. (Dropped from the original claim: uniqueness of the
entries — the handler does not enforce it, see the counterexample.) -/
theorem update_categories_invariant (text : PyStr) (prev : List PyStr)
    (hprev : prev ≠ []) :
    update_categories text prev ≠ [] ∧
    (parseCategoriesText text = [] → update_categories text prev = prev) ∧
    (parseCategoriesText text ≠ [] →
      update_categories text prev = parseCategoriesText text) ∧
    (∀ c ∈ parseCategoriesText text,
      c ≠ [] ∧ ∃ line ∈ pySplit newline text, c = pyStrip line) := by
  have hbranch : update_categories text prev =
      if !(parseCategoriesText text).isEmpty then parseCategoriesText text
      else prev := rfl
  cases hp : parseCategoriesText text with
  | nil =>
    have hupd : update_categories text prev = prev := by
      rw [hbranch, hp]
      rfl
    exact ⟨by rw [hupd]; exact hprev, fun _ => hupd, fun hne => absurd rfl hne,
      fun c hc => absurd hc (List.not_mem_nil c)⟩
  | cons c0 rest =>
    have hupd : update_categories text prev = c0 :: rest := by
      rw [hbranch, hp]
      rfl
    refine ⟨by rw [hupd]; exact List.cons_ne_nil c0 rest,
      fun h0 => absurd h0 (List.cons_ne_nil c0 rest), fun _ => hupd, ?_⟩
    exact hp ▸ parseCategoriesText_entries text

/-- Witness for C9 (amended): previous list `["x"]`, text `" a "`; the update
is accepted and the new sequence is `["a"]`. -/
theorem update_categories_invariant_witness :
    (["x".data] : List PyStr) ≠ [] ∧
    update_categories " a ".data ["x".data] ≠ [] ∧
    (parseCategoriesText " a ".data ≠ [] →
      update_categories " a ".data ["x".data] = parseCategoriesText " a ".data) := by
  have h := update_categories_invariant " a ".data ["x".data] (by decide)
  exact ⟨by decide, h.1, h.2.2.1⟩
